import Mathlib

/- Verification of the Valentine terminal program
   (src/VALentine/Valentine/src/main.rs).

   The interactive program is shallowly embedded: keyboard input becomes a
   list of events, rendering becomes a trace of frames, and each blocking
   retry loop becomes recursion on the remaining event list (a read on an
   exhausted list yields none, modelling a read that blocks forever).
   ANSI styling and the wall clock are abstracted away; all strings keep
   their exact source text. -/

namespace Valentine

/-- Key codes as far as the program inspects them: a printable character,
    or any other key (arrows, function keys, ...). -/
inductive KeyCode where
  | char (c : Char)
  | other
  deriving DecidableEq

/-- Terminal events: a key press, or any non-key event (mouse, resize, ...). -/
inductive Event where
  | key (k : KeyCode)
  | nonKey
  deriving DecidableEq

/-- Rust char::to_ascii_uppercase: ASCII lowercase letters are shifted to
    uppercase, every other character is unchanged. -/
def toAsciiUppercase (c : Char) : Char :=
  if 'a' ≤ c ∧ c ≤ 'z' then Char.ofNat (c.toNat - 32) else c

/-- The letter filter of read_abcd. -/
def abcd_ok (c : Char) : Bool :=
  c == 'A' || c == 'B' || c == 'C' || c == 'D'

/-- The letter filter of read_yn. -/
def yn_ok (c : Char) : Bool :=
  c == 'Y' || c == 'N'

/-- An event that read_abcd would accept. -/
def abcd_match (e : Event) : Bool :=
  match e with
  | Event.key (KeyCode.char c) => abcd_ok (toAsciiUppercase c)
  | _ => false

/-- An event that read_yn would accept. -/
def yn_match (e : Event) : Bool :=
  match e with
  | Event.key (KeyCode.char c) => yn_ok (toAsciiUppercase c)
  | _ => false

/-- read_abcd: discard events until a character key whose uppercase form is
    one of A/B/C/D arrives; return that letter and the remaining events. -/
def read_abcd : List Event → Option (Char × List Event)
  | [] => none
  | Event.key (KeyCode.char c) :: rest =>
    if abcd_ok (toAsciiUppercase c) then some (toAsciiUppercase c, rest)
    else read_abcd rest
  | Event.key KeyCode.other :: rest => read_abcd rest
  | Event.nonKey :: rest => read_abcd rest

/-- read_yn: discard events until a character key whose uppercase form is
    Y or N arrives; return that letter and the remaining events. -/
def read_yn : List Event → Option (Char × List Event)
  | [] => none
  | Event.key (KeyCode.char c) :: rest =>
    if yn_ok (toAsciiUppercase c) then some (toAsciiUppercase c, rest)
    else read_yn rest
  | Event.key KeyCode.other :: rest => read_yn rest
  | Event.nonKey :: rest => read_yn rest

/-- wait_any_key: discard events until any key event arrives and consume it. -/
def wait_any_key : List Event → Option (List Event)
  | [] => none
  | Event.key _ :: rest => some rest
  | Event.nonKey :: rest => wait_any_key rest

/-- Consumption bound for read_abcd (used by the termination arguments of
    the retry loops below, hence stated as a def before them). -/
def read_abcd_consumes : ∀ (l : List Event) (c : Char) (r : List Event),
    read_abcd l = some (c, r) → r.length < l.length := by
  intro l
  induction l with
  | nil => intro c r h; simp [read_abcd] at h
  | cons e t ih =>
    intro c r h
    cases e with
    | nonKey =>
      simp only [read_abcd] at h
      exact Nat.lt_succ_of_lt (ih c r h)
    | key k =>
      cases k with
      | other =>
        simp only [read_abcd] at h
        exact Nat.lt_succ_of_lt (ih c r h)
      | char ch =>
        simp only [read_abcd] at h
        split at h
        · cases h
          simp
        · exact Nat.lt_succ_of_lt (ih c r h)

/-- Consumption bound for read_yn. -/
def read_yn_consumes : ∀ (l : List Event) (c : Char) (r : List Event),
    read_yn l = some (c, r) → r.length < l.length := by
  intro l
  induction l with
  | nil => intro c r h; simp [read_yn] at h
  | cons e t ih =>
    intro c r h
    cases e with
    | nonKey =>
      simp only [read_yn] at h
      exact Nat.lt_succ_of_lt (ih c r h)
    | key k =>
      cases k with
      | other =>
        simp only [read_yn] at h
        exact Nat.lt_succ_of_lt (ih c r h)
      | char ch =>
        simp only [read_yn] at h
        split at h
        · cases h
          simp
        · exact Nat.lt_succ_of_lt (ih c r h)

/-- Consumption bound for wait_any_key. -/
def wait_any_key_consumes : ∀ (l r : List Event),
    wait_any_key l = some r → r.length < l.length := by
  intro l
  induction l with
  | nil => intro r h; simp [wait_any_key] at h
  | cons e t ih =>
    intro r h
    cases e with
    | key k =>
      simp only [wait_any_key, Option.some.injEq] at h
      subst h
      simp
    | nonKey =>
      simp only [wait_any_key] at h
      exact Nat.lt_succ_of_lt (ih r h)

/-- A multiple-choice question record, exactly as in the source. -/
structure McQuestion where
  title : String
  prompt : String
  a : String
  b : String
  c : String
  d : String
  correct : Char
  wrong_msg : String
  deriving DecidableEq

/-- One full-screen frame as passed to draw_frame. The output handle, the
    ANSI styling and the clock argument are abstracted away; the remaining
    arguments are recorded verbatim. -/
structure Frame where
  title : String
  lines : List String
  footer : String
  lock_idx : Nat
  lock_total : Nat
  status : String
  deriving DecidableEq

/-- draw_frame: in the embedding a draw call simply produces the frame
    record that the source would render. -/
def draw_frame (title : String) (lines : List String) (footer : String)
    (lock_idx lock_total : Nat) (status : String) : Frame :=
  ⟨title, lines, footer, lock_idx, lock_total, status⟩

/-- The question frame drawn at the top of every ask_mc iteration. -/
def question_frame (q : McQuestion) (idx total : Nat) : Frame :=
  draw_frame q.title
    [q.prompt, "", ("A) " ++ q.a), ("B) " ++ q.b), ("C) " ++ q.c), ("D) " ++ q.d), "",
      "Press A / B / C / D"]
    ("Choose wisely 🙂") idx total ("AWAITING INPUT")

/-- The success frame of ask_mc. -/
def pass_frame (q : McQuestion) (idx total : Nat) : Frame :=
  draw_frame q.title [("✅ Correct!")] ("Press any key to continue") idx total ("PASS")

/-- The failure frame of ask_mc; its second line is the question's hint. -/
def retry_frame (q : McQuestion) (idx total : Nat) : Frame :=
  draw_frame q.title [("❌ Incorrect."), q.wrong_msg] ("Press any key to retry") idx total
    ("RETRY")

/-- The retry loop of ask_mc: draw the question, read A/B/C/D, branch on
    correctness; returns the frames drawn and the remaining events, or none
    when input runs out (the source would block forever). -/
def ask_mc (q : McQuestion) (idx total : Nat) (evs : List Event) :
    Option (List Frame × List Event) :=
  match h1 : read_abcd evs with
  | none => none
  | some (c, rest) =>
    if c = q.correct then
      match wait_any_key rest with
      | none => none
      | some rest2 =>
        some ([question_frame q idx total, pass_frame q idx total], rest2)
    else
      match h2 : wait_any_key rest with
      | none => none
      | some rest2 =>
        match ask_mc q idx total rest2 with
        | none => none
        | some (fs, rest3) =>
          some (question_frame q idx total :: retry_frame q idx total :: fs, rest3)
termination_by evs.length
decreasing_by
  have hb1 := read_abcd_consumes evs c rest h1
  have hb2 := wait_any_key_consumes rest rest2 h2
  omega

/-- The escalating hint of final_lock, selected by the post-increment value
    of no_count. -/
def final_lock_msg (no_count : Nat) : String :=
  match no_count with
  | 1 => "❌ I think you pressed the wrong key..."
  | 2 => "❌ Hint: 3 letters."
  | _ => "❌ Just kidding, I know you love me 😄"

/-- The yes/no prompt frame of final_lock. -/
def final_prompt_frame : Frame :=
  draw_frame ("FINAL LOCK")
    [("Will you be my Valentine? (Y / N)"), ("(This is easy right? right? 😅)")]
    ("Press Y or N") 4 4 ("AWAITING INPUT")

/-- The success frame of final_lock. -/
def success_frame : Frame :=
  draw_frame ("MISSION SUCCESS")
    [("✈ TAKEOFF CLEARED ✈"), ("VALENTINE AUTHORIZED ❤️")]
    ("Press any key to exit") 4 4 ("SUCCESS")

/-- The hint frame of final_lock after the k-th consecutive N. -/
def retry_hint_frame (k : Nat) : Frame :=
  draw_frame ("FINAL LOCK") [final_lock_msg k] ("Press any key to retry") 4 4 ("RETRY")

/-- The final_lock loop with its running no_count, mirroring the source
    match (including its wildcard arm, which loops without drawing a hint). -/
def final_lock_loop (no_count : Nat) (evs : List Event) :
    Option (List Frame × List Event) :=
  match h1 : read_yn evs with
  | none => none
  | some (c, rest) =>
    if c = 'Y' then
      match wait_any_key rest with
      | none => none
      | some rest2 => some ([final_prompt_frame, success_frame], rest2)
    else if c = 'N' then
      match h2 : wait_any_key rest with
      | none => none
      | some rest2 =>
        match final_lock_loop (no_count + 1) rest2 with
        | none => none
        | some (fs, rest3) =>
          some (final_prompt_frame :: retry_hint_frame (no_count + 1) :: fs, rest3)
    else
      match final_lock_loop no_count rest with
      | none => none
      | some (fs, rest3) => some (final_prompt_frame :: fs, rest3)
termination_by evs.length
decreasing_by
  · have hb1 := read_yn_consumes evs c rest h1
    have hb2 := wait_any_key_consumes rest rest2 h2
    omega
  · have hb1 := read_yn_consumes evs c rest h1
    omega

/-- final_lock as called from main: the no_count counter starts at 0. -/
def final_lock (evs : List Event) : Option (List Frame × List Event) :=
  final_lock_loop 0 evs

/-- The same loop with the match written with only the Y and N arms (the N
    code as the catch-all); used to state that the source's wildcard arm is
    unreachable. -/
def final_lock_yn_only (no_count : Nat) (evs : List Event) :
    Option (List Frame × List Event) :=
  match h1 : read_yn evs with
  | none => none
  | some (c, rest) =>
    if c = 'Y' then
      match wait_any_key rest with
      | none => none
      | some rest2 => some ([final_prompt_frame, success_frame], rest2)
    else
      match h2 : wait_any_key rest with
      | none => none
      | some rest2 =>
        match final_lock_yn_only (no_count + 1) rest2 with
        | none => none
        | some (fs, rest3) =>
          some (final_prompt_frame :: retry_hint_frame (no_count + 1) :: fs, rest3)
termination_by evs.length
decreasing_by
  have hb1 := read_yn_consumes evs c rest h1
  have hb2 := wait_any_key_consumes rest rest2 h2
  omega

/-- The two glyph lines of the cutscene. -/
def jet1 : String := "    __|__"

/-- The second glyph line; its Rust byte length bounds the sweep. -/
def jet2 : String := "--o--(_)--o--"

/-- Rust jet2.len(): the UTF-8 byte length of the second glyph line (13,
    which for this ASCII glyph also equals its character count). -/
def jet_glyph_width : Nat := jet2.utf8ByteSize

/-- The successive glyph columns of jet_cutscene:
    for x in 0..(w.saturating_sub(jet2.len())). -/
def jet_positions (w : Nat) : List Nat := List.range (w - jet_glyph_width)

/-- The chrome frame redrawn on every cutscene tick. -/
def running_frame : Frame :=
  draw_frame ("✈ OPERATION: VALENTINE SORTIE ✈") [("Cleared for takeoff…")]
    ("Enjoy the flyby 😄") 0 4 ("RUNNING")

/-- Tick trace of jet_cutscene: each tick draws the chrome frame and
    overlays the glyph at column x (the vertical position h/2 and the sleep
    are irrelevant to the claims and omitted). -/
def jet_cutscene_run (w : Nat) : List (Nat × Frame) :=
  (jet_positions w).map (fun x => (x, running_frame))

/-- The frames drawn by the cutscene, in order. -/
def cutscene_frames (w : Nat) : List Frame :=
  (jet_cutscene_run w).map Prod.snd

/-- center_x from the source: the character count of the text is cast to
    u16 (truncation mod 2^16); subtraction and halving saturate. -/
def center_x (width : Nat) (text : List Char) : Nat :=
  (width - text.length % 65536) / 2

/-- Rust format "{:02}": decimal digits, left-padded with zeros to a width
    of at least two. -/
def format_pad2 (n : Nat) : String :=
  let s := Nat.repr n
  if s.length < 2 then String.mk (List.replicate (2 - s.length) '0' ++ s.data) else s

/-- The elapsed-time segment drawn by draw_status_bar after s whole
    seconds: minutes as s / 60 and seconds as s % 60, each zero-padded. -/
def status_bar_time (secs : Nat) : String :=
  format_pad2 (secs / 60) ++ ":" ++ format_pad2 (secs % 60)

/-- LOCK 1, verbatim from main. -/
def lock1 : McQuestion :=
  { title := "LOCK 1: FIRST DATE"
    prompt := "Where was our first date?"
    a := "Kiitsu"
    b := "Raising Canes"
    c := "Six Flags"
    d := "San Diego"
    correct := 'A'
    wrong_msg := "Hint: You like sushi don\x27t you? 🍣" }

/-- LOCK 2, verbatim from main. -/
def lock2 : McQuestion :=
  { title := "LOCK 2: FIRST HUG"
    prompt := "When did we first hug?"
    a := "Joshua Tree"
    b := "The beach"
    c := "Dining In"
    d := "All of the above"
    correct := 'A'
    wrong_msg := "Hint: flightline chaos 😄" }

/-- LOCK 3, verbatim from main. -/
def lock3 : McQuestion :=
  { title := "LOCK 3: I LOVE YOU SO MUCH THAT I\x27ll..."
    prompt := "What game did we play when we were getting to know each other?"
    a := "It Takes Two"
    b := "Overcooked"
    c := "Fortnite"
    d := "Animal Crossing"
    correct := 'C'
    wrong_msg := "Hint: I carried so hard, its a battle royal game! 🎮" }

/-- The configured question list of main. -/
def locks : List McQuestion := [lock1, lock2, lock3]

/-- The standby frame drawn by main before the first keypress. -/
def welcome_frame : Frame :=
  draw_frame ("OPERATION: VALENTINE") [("Press any key to begin")]
    ("Controls: A/B/C/D, Y/N") 0 4 ("STANDBY")

/-- The enumerated question loop of main: question i (0-based) is asked via
    ask_mc with lock index i + 1 and the literal total 4. -/
def ask_all : List McQuestion → Nat → List Event → Option (List Frame × List Event)
  | [], _, evs => some ([], evs)
  | q :: qs, idx, evs =>
    (ask_mc q idx 4 evs).bind (fun p =>
      (ask_all qs (idx + 1) p.2).map (fun p2 => (p.1 ++ p2.1, p2.2)))

/-- A whole session of main: welcome frame, any key, cutscene (its sweep
    length depends on the terminal width w), the three questions in order,
    then final_lock. Returns the full frame trace and the unused events;
    the bind chain mirrors the source's fallible call sequence. -/
def mainRun (w : Nat) (evs : List Event) : Option (List Frame × List Event) :=
  (wait_any_key evs).bind (fun evs1 =>
    (ask_all locks 1 evs1).bind (fun qp =>
      (final_lock qp.2).map (fun fp =>
        (welcome_frame :: (cutscene_frames w ++ (qp.1 ++ fp.1)), fp.2))))

/-- Shorthand for a character key event. -/
def Kc (c : Char) : Event := Event.key (KeyCode.char c)

/-- A concrete full session: welcome key, a wrong then the right answer to
    lock 1, right answers to locks 2 and 3, one N then Y at the final lock. -/
def c1_events : List Event :=
  [Kc 's', Kc 'b', Kc 'r', Kc 'a', Kc 'p', Kc 'a', Kc 'p', Kc 'c', Kc 'p',
    Kc 'n', Kc 'r', Kc 'y', Kc 'e']

/-- The frames of ask_mc on lock 1 in the concrete session. -/
def c1_t1 : List Frame :=
  [question_frame lock1 1 4, retry_frame lock1 1 4, question_frame lock1 1 4,
    pass_frame lock1 1 4]

/-- The frames of ask_mc on lock 2 in the concrete session. -/
def c1_t2 : List Frame := [question_frame lock2 2 4, pass_frame lock2 2 4]

/-- The frames of ask_mc on lock 3 in the concrete session. -/
def c1_t3 : List Frame := [question_frame lock3 3 4, pass_frame lock3 3 4]

/-- The frames of final_lock in the concrete session. -/
def c1_tf : List Frame :=
  [final_prompt_frame, retry_hint_frame 1, final_prompt_frame, success_frame]

/-- The full frame trace of the concrete session at width 80. -/
def c1_frames : List Frame :=
  welcome_frame :: (cutscene_frames 80 ++ (c1_t1 ++ (c1_t2 ++ (c1_t3 ++ c1_tf))))

/-- One ask_mc iteration on a correct answer: question frame, success
    frame, one consumed key, and the loop returns. -/
theorem ask_mc_correct_step (q : McQuestion) (idx total : Nat) (evs rest rest2 : List Event)
    (h1 : read_abcd evs = some (q.correct, rest)) (h2 : wait_any_key rest = some rest2) :
    ask_mc q idx total evs = some ([question_frame q idx total, pass_frame q idx total], rest2) := by
  conv_lhs => unfold ask_mc
  split
  · simp_all
  · rename_i c rest' heq
    rw [h1] at heq
    simp only [Option.some.injEq, Prod.mk.injEq] at heq
    obtain ⟨hc, hr⟩ := heq
    subst hc
    subst hr
    rw [if_pos rfl]
    split
    · simp_all
    · rename_i rest2' heq2
      rw [h2] at heq2
      simp only [Option.some.injEq] at heq2
      subst heq2
      rfl

/-- One ask_mc iteration on a wrong answer: question frame, failure frame
    with the hint, one consumed key, and the same question is asked again. -/
theorem ask_mc_wrong_step (q : McQuestion) (idx total : Nat) (evs rest rest2 : List Event)
    (c : Char)
    (h1 : read_abcd evs = some (c, rest)) (hc : c ≠ q.correct)
    (h2 : wait_any_key rest = some rest2) :
    ask_mc q idx total evs =
      (ask_mc q idx total rest2).map
        (fun p => (question_frame q idx total :: retry_frame q idx total :: p.1, p.2)) := by
  conv_lhs => unfold ask_mc
  split
  · simp_all
  · rename_i c' rest' heq
    rw [h1] at heq
    simp only [Option.some.injEq, Prod.mk.injEq] at heq
    obtain ⟨hcc, hr⟩ := heq
    subst hcc
    subst hr
    rw [if_neg hc]
    split
    · simp_all
    · rename_i rest2' heq2
      rw [h2] at heq2
      simp only [Option.some.injEq] at heq2
      subst heq2
      cases hrec : ask_mc q idx total rest2 with
      | none => simp
      | some p => cases p with | mk fs r3 => simp

/-- ask_mc on exhausted input: the loop never returns. -/
theorem ask_mc_blocked (q : McQuestion) (idx total : Nat) (evs : List Event)
    (h1 : read_abcd evs = none) : ask_mc q idx total evs = none := by
  conv_lhs => unfold ask_mc
  split
  · rfl
  · simp_all

/-- One final_lock iteration on Y: prompt frame, success frame, one
    consumed key, and the loop returns, whatever the no_count. -/
theorem final_yes_step (nc : Nat) (evs rest rest2 : List Event)
    (h1 : read_yn evs = some ('Y', rest)) (h2 : wait_any_key rest = some rest2) :
    final_lock_loop nc evs = some ([final_prompt_frame, success_frame], rest2) := by
  conv_lhs => unfold final_lock_loop
  split
  · simp_all
  · rename_i c rest' heq
    rw [h1] at heq
    simp only [Option.some.injEq, Prod.mk.injEq] at heq
    obtain ⟨hc, hr⟩ := heq
    subst hc
    subst hr
    rw [if_pos rfl]
    split
    · simp_all
    · rename_i rest2' heq2
      rw [h2] at heq2
      simp only [Option.some.injEq] at heq2
      subst heq2
      rfl

/-- One final_lock iteration on N: prompt frame, the hint selected by the
    incremented no_count, one consumed key, and the loop repeats with the
    incremented counter. -/
theorem final_no_step (nc : Nat) (evs rest rest2 : List Event)
    (h1 : read_yn evs = some ('N', rest)) (h2 : wait_any_key rest = some rest2) :
    final_lock_loop nc evs =
      (final_lock_loop (nc + 1) rest2).map
        (fun p => (final_prompt_frame :: retry_hint_frame (nc + 1) :: p.1, p.2)) := by
  conv_lhs => unfold final_lock_loop
  split
  · simp_all
  · rename_i c rest' heq
    rw [h1] at heq
    simp only [Option.some.injEq, Prod.mk.injEq] at heq
    obtain ⟨hc, hr⟩ := heq
    subst hc
    subst hr
    rw [if_neg (by decide : ('N' : Char) ≠ 'Y')]
    rw [if_pos rfl]
    split
    · simp_all
    · rename_i rest2' heq2
      rw [h2] at heq2
      simp only [Option.some.injEq] at heq2
      subst heq2
      cases hrec : final_lock_loop (nc + 1) rest2 with
      | none => simp
      | some p => cases p with | mk fs r3 => simp

/-- final_lock on exhausted input: the loop never returns. -/
theorem final_lock_loop_blocked (nc : Nat) (evs : List Event)
    (h1 : read_yn evs = none) : final_lock_loop nc evs = none := by
  conv_lhs => unfold final_lock_loop
  split
  · rfl
  · simp_all

/-- read_abcd only ever returns one of the four designated letters. -/
theorem read_abcd_range : ∀ (l : List Event) (c : Char) (r : List Event),
    read_abcd l = some (c, r) → abcd_ok c = true := by
  intro l
  induction l with
  | nil => intro c r h; simp [read_abcd] at h
  | cons e t ih =>
    intro c r h
    cases e with
    | nonKey => simp only [read_abcd] at h; exact ih c r h
    | key k =>
      cases k with
      | other => simp only [read_abcd] at h; exact ih c r h
      | char ch =>
        simp only [read_abcd] at h
        split at h
        · rename_i hok
          cases h
          exact hok
        · exact ih c r h

/-- read_yn only ever returns Y or N. -/
theorem read_yn_range : ∀ (l : List Event) (c : Char) (r : List Event),
    read_yn l = some (c, r) → yn_ok c = true := by
  intro l
  induction l with
  | nil => intro c r h; simp [read_yn] at h
  | cons e t ih =>
    intro c r h
    cases e with
    | nonKey => simp only [read_yn] at h; exact ih c r h
    | key k =>
      cases k with
      | other => simp only [read_yn] at h; exact ih c r h
      | char ch =>
        simp only [read_yn] at h
        split at h
        · rename_i hok
          cases h
          exact hok
        · exact ih c r h

/-- Unpacking the yn filter. -/
theorem yn_ok_cases (c : Char) (h : yn_ok c = true) : c = 'Y' ∨ c = 'N' := by
  simp only [yn_ok, Bool.or_eq_true, beq_iff_eq] at h
  exact h

/-- Branch evaluation of final_lock_loop on Y, covering a possibly
    exhausted wait_any_key. -/
theorem final_yes_eval (nc : Nat) (evs rest : List Event)
    (h1 : read_yn evs = some ('Y', rest)) :
    final_lock_loop nc evs =
      (wait_any_key rest).map (fun rest2 => ([final_prompt_frame, success_frame], rest2)) := by
  cases hw : wait_any_key rest with
  | none =>
    conv_lhs => unfold final_lock_loop
    split
    · rfl
    · rename_i c rest' heq
      rw [h1] at heq
      simp only [Option.some.injEq, Prod.mk.injEq] at heq
      obtain ⟨hc, hr⟩ := heq
      subst hc
      subst hr
      rw [if_pos rfl]
      split
      · rfl
      · simp_all
  | some rest2 => rw [final_yes_step nc evs rest rest2 h1 hw]; rfl

/-- Branch evaluation of final_lock_loop on N, covering a possibly
    exhausted wait_any_key. -/
theorem final_no_eval (nc : Nat) (evs rest : List Event)
    (h1 : read_yn evs = some ('N', rest)) :
    final_lock_loop nc evs =
      (wait_any_key rest).bind (fun rest2 =>
        (final_lock_loop (nc + 1) rest2).map
          (fun p => (final_prompt_frame :: retry_hint_frame (nc + 1) :: p.1, p.2))) := by
  cases hw : wait_any_key rest with
  | none =>
    conv_lhs => unfold final_lock_loop
    split
    · rfl
    · rename_i c rest' heq
      rw [h1] at heq
      simp only [Option.some.injEq, Prod.mk.injEq] at heq
      obtain ⟨hc, hr⟩ := heq
      subst hc
      subst hr
      rw [if_neg (by decide : ('N' : Char) ≠ 'Y')]
      rw [if_pos rfl]
      split
      · rfl
      · simp_all
  | some rest2 => rw [final_no_step nc evs rest rest2 h1 hw]; rfl

/-- final_lock_yn_only on exhausted input. -/
theorem yn_only_blocked (nc : Nat) (evs : List Event)
    (h1 : read_yn evs = none) : final_lock_yn_only nc evs = none := by
  conv_lhs => unfold final_lock_yn_only
  split
  · rfl
  · simp_all

/-- Branch evaluation of final_lock_yn_only on Y. -/
theorem yn_only_yes_eval (nc : Nat) (evs rest : List Event)
    (h1 : read_yn evs = some ('Y', rest)) :
    final_lock_yn_only nc evs =
      (wait_any_key rest).map (fun rest2 => ([final_prompt_frame, success_frame], rest2)) := by
  conv_lhs => unfold final_lock_yn_only
  split
  · simp_all
  · rename_i c rest' heq
    rw [h1] at heq
    simp only [Option.some.injEq, Prod.mk.injEq] at heq
    obtain ⟨hc, hr⟩ := heq
    subst hc
    subst hr
    rw [if_pos rfl]
    cases hw : wait_any_key rest with
    | none =>
      split
      · rfl
      · simp_all
    | some rest2 =>
      split
      · simp_all
      · rename_i rest2' heq2
        simp only [Option.some.injEq] at heq2
        subst heq2
        rfl

/-- Branch evaluation of final_lock_yn_only on any non-Y letter. -/
theorem yn_only_else_eval (nc : Nat) (evs rest : List Event) (c : Char)
    (h1 : read_yn evs = some (c, rest)) (hc : c ≠ 'Y') :
    final_lock_yn_only nc evs =
      (wait_any_key rest).bind (fun rest2 =>
        (final_lock_yn_only (nc + 1) rest2).map
          (fun p => (final_prompt_frame :: retry_hint_frame (nc + 1) :: p.1, p.2))) := by
  conv_lhs => unfold final_lock_yn_only
  split
  · simp_all
  · rename_i c' rest' heq
    rw [h1] at heq
    simp only [Option.some.injEq, Prod.mk.injEq] at heq
    obtain ⟨hcc, hr⟩ := heq
    subst hcc
    subst hr
    rw [if_neg hc]
    cases hw : wait_any_key rest with
    | none =>
      split
      · rfl
      · simp_all
    | some rest2 =>
      split
      · simp_all
      · rename_i rest2' heq2
        simp only [Option.some.injEq] at heq2
        subst heq2
        simp only [Option.some_bind]
        cases hrec : final_lock_yn_only (nc + 1) rest2 with
        | none => simp
        | some p => cases p with | mk fs r3 => simp

/-- Because read_yn only returns Y or N, the source's wildcard arm never
    fires: the loop coincides with its two-branch version (fuelled form). -/
theorem final_lock_loop_eq_aux : ∀ (n nc : Nat) (evs : List Event), evs.length ≤ n →
    final_lock_loop nc evs = final_lock_yn_only nc evs := by
  intro n
  induction n with
  | zero =>
    intro nc evs hle
    have he : evs = [] := List.eq_nil_of_length_eq_zero (Nat.le_zero.mp hle)
    subst he
    rw [final_lock_loop_blocked nc [] rfl, yn_only_blocked nc [] rfl]
  | succ n ih =>
    intro nc evs hle
    cases hr : read_yn evs with
    | none => rw [final_lock_loop_blocked nc evs hr, yn_only_blocked nc evs hr]
    | some p =>
      obtain ⟨c, rest⟩ := p
      have hlen := read_yn_consumes evs c rest hr
      rcases yn_ok_cases c (read_yn_range evs c rest hr) with hY | hN
      · subst hY
        rw [final_yes_eval nc evs rest hr, yn_only_yes_eval nc evs rest hr]
      · subst hN
        rw [final_no_eval nc evs rest hr,
            yn_only_else_eval nc evs rest 'N' hr (by decide)]
        cases hw : wait_any_key rest with
        | none => rfl
        | some rest2 =>
          have hlen2 := wait_any_key_consumes rest rest2 hw
          simp only [Option.some_bind]
          rw [ih (nc + 1) rest2 (by omega)]

/-- Branch evaluation of ask_mc on the correct letter, covering a possibly
    exhausted wait_any_key. -/
theorem ask_mc_correct_eval (q : McQuestion) (idx total : Nat) (evs rest : List Event)
    (h1 : read_abcd evs = some (q.correct, rest)) :
    ask_mc q idx total evs =
      (wait_any_key rest).map
        (fun rest2 => ([question_frame q idx total, pass_frame q idx total], rest2)) := by
  cases hw : wait_any_key rest with
  | none =>
    conv_lhs => unfold ask_mc
    split
    · rfl
    · rename_i c rest' heq
      rw [h1] at heq
      simp only [Option.some.injEq, Prod.mk.injEq] at heq
      obtain ⟨hc, hr⟩ := heq
      subst hc
      subst hr
      rw [if_pos rfl]
      split
      · rfl
      · simp_all
  | some rest2 => rw [ask_mc_correct_step q idx total evs rest rest2 h1 hw]; rfl

/-- Branch evaluation of ask_mc on a wrong letter, covering a possibly
    exhausted wait_any_key. -/
theorem ask_mc_wrong_eval (q : McQuestion) (idx total : Nat) (evs rest : List Event)
    (c : Char) (h1 : read_abcd evs = some (c, rest)) (hc : c ≠ q.correct) :
    ask_mc q idx total evs =
      (wait_any_key rest).bind (fun rest2 =>
        (ask_mc q idx total rest2).map
          (fun p => (question_frame q idx total :: retry_frame q idx total :: p.1, p.2))) := by
  cases hw : wait_any_key rest with
  | none =>
    conv_lhs => unfold ask_mc
    split
    · rfl
    · rename_i c' rest' heq
      rw [h1] at heq
      simp only [Option.some.injEq, Prod.mk.injEq] at heq
      obtain ⟨hcc, hr⟩ := heq
      subst hcc
      subst hr
      rw [if_neg hc]
      split
      · rfl
      · simp_all
  | some rest2 => rw [ask_mc_wrong_step q idx total evs rest rest2 c h1 hc hw]; rfl

/-- A hint frame is never the success frame (their titles differ). -/
theorem retry_hint_ne_success (k : Nat) : retry_hint_frame k ≠ success_frame := by
  intro h
  have := congrArg Frame.title h
  simp [retry_hint_frame, success_frame, draw_frame] at this

/-- The prompt frame is never the success frame. -/
theorem prompt_ne_success : final_prompt_frame ≠ success_frame := by decide

/-- Shape of every completed final_lock trace: it opens with the prompt,
    closes with the success frame, contains the success frame exactly once,
    and contains nothing but prompt, hint and success frames (fuelled). -/
theorem final_lock_loop_trace : ∀ (n nc : Nat) (evs : List Event), evs.length ≤ n →
    ∀ fs rest, final_lock_loop nc evs = some (fs, rest) →
      fs.head? = some final_prompt_frame ∧
      fs.getLast? = some success_frame ∧
      List.count success_frame fs = 1 ∧
      ∀ f ∈ fs, f = final_prompt_frame ∨ (∃ k, f = retry_hint_frame k) ∨ f = success_frame := by
  intro n
  induction n with
  | zero =>
    intro nc evs hle fs rest h
    have he : evs = [] := List.eq_nil_of_length_eq_zero (Nat.le_zero.mp hle)
    subst he
    rw [final_lock_loop_blocked nc [] rfl] at h
    cases h
  | succ n ih =>
    intro nc evs hle fs rest h
    cases hr : read_yn evs with
    | none =>
      rw [final_lock_loop_blocked nc evs hr] at h
      cases h
    | some p =>
      obtain ⟨c, rest1⟩ := p
      have hlen := read_yn_consumes evs c rest1 hr
      rcases yn_ok_cases c (read_yn_range evs c rest1 hr) with hY | hN
      · subst hY
        rw [final_yes_eval nc evs rest1 hr] at h
        cases hw : wait_any_key rest1 with
        | none => rw [hw] at h; cases h
        | some rest2 =>
          rw [hw] at h
          simp only [Option.map_some', Option.some.injEq, Prod.mk.injEq] at h
          obtain ⟨hfs, hrest⟩ := h
          subst hfs
          refine ⟨rfl, rfl, by decide, ?_⟩
          intro f hf
          simp only [List.mem_cons, List.mem_singleton] at hf
          rcases hf with hf | hf | hf
          · exact Or.inl hf
          · exact Or.inr (Or.inr hf)
          · cases hf
      · subst hN
        rw [final_no_eval nc evs rest1 hr] at h
        cases hw : wait_any_key rest1 with
        | none => rw [hw] at h; cases h
        | some rest2 =>
          rw [hw] at h
          simp only [Option.some_bind] at h
          cases hrec : final_lock_loop (nc + 1) rest2 with
          | none => rw [hrec] at h; cases h
          | some p2 =>
            obtain ⟨fs2, r3⟩ := p2
            rw [hrec] at h
            simp only [Option.map_some', Option.some.injEq, Prod.mk.injEq] at h
            obtain ⟨hfs, hrest⟩ := h
            subst hfs
            have hlen2 := wait_any_key_consumes rest1 rest2 hw
            obtain ⟨ihh, ihl, ihc, ihm⟩ := ih (nc + 1) rest2 (by omega) fs2 r3 hrec
            obtain ⟨f0, fs2', hfs2⟩ : ∃ f0 fs2', fs2 = f0 :: fs2' := by
              cases fs2 with
              | nil => cases ihh
              | cons f0 fs2' => exact ⟨f0, fs2', rfl⟩
            subst hfs2
            refine ⟨rfl, ?_, ?_, ?_⟩
            · rw [List.getLast?_cons_cons, List.getLast?_cons_cons]
              exact ihl
            · rw [List.count_cons, List.count_cons, ihc]
              have h1 : (final_prompt_frame == success_frame) = false := by decide
              have h2 : (retry_hint_frame (nc + 1) == success_frame) = false := by
                exact beq_eq_false_iff_ne.mpr (retry_hint_ne_success (nc + 1))
              simp [h1, h2]
            · intro f hf
              simp only [List.mem_cons] at hf
              rcases hf with hf | hf | hf
              · exact Or.inl hf
              · exact Or.inr (Or.inl ⟨nc + 1, hf⟩)
              · exact ihm f (by simp [hf])

/-- Shape of every completed ask_mc trace: it closes with the success
    frame of that question, and contains only that question's question,
    retry and pass frames (fuelled). -/
theorem ask_mc_trace (q : McQuestion) (idx total : Nat) :
    ∀ (n : Nat) (evs : List Event), evs.length ≤ n →
    ∀ fs rest, ask_mc q idx total evs = some (fs, rest) →
      fs.getLast? = some (pass_frame q idx total) ∧
      ∀ f ∈ fs, f = question_frame q idx total ∨ f = retry_frame q idx total ∨
        f = pass_frame q idx total := by
  intro n
  induction n with
  | zero =>
    intro evs hle fs rest h
    have he : evs = [] := List.eq_nil_of_length_eq_zero (Nat.le_zero.mp hle)
    subst he
    rw [ask_mc_blocked q idx total [] rfl] at h
    cases h
  | succ n ih =>
    intro evs hle fs rest h
    cases hr : read_abcd evs with
    | none =>
      rw [ask_mc_blocked q idx total evs hr] at h
      cases h
    | some p =>
      obtain ⟨c, rest1⟩ := p
      have hlen := read_abcd_consumes evs c rest1 hr
      by_cases hc : c = q.correct
      · subst hc
        rw [ask_mc_correct_eval q idx total evs rest1 hr] at h
        cases hw : wait_any_key rest1 with
        | none => rw [hw] at h; cases h
        | some rest2 =>
          rw [hw] at h
          simp only [Option.map_some', Option.some.injEq, Prod.mk.injEq] at h
          obtain ⟨hfs, hrest⟩ := h
          subst hfs
          refine ⟨rfl, ?_⟩
          intro f hf
          simp only [List.mem_cons, List.mem_singleton] at hf
          rcases hf with hf | hf | hf
          · exact Or.inl hf
          · exact Or.inr (Or.inr hf)
          · cases hf
      · rw [ask_mc_wrong_eval q idx total evs rest1 c hr hc] at h
        cases hw : wait_any_key rest1 with
        | none => rw [hw] at h; cases h
        | some rest2 =>
          rw [hw] at h
          simp only [Option.some_bind] at h
          cases hrec : ask_mc q idx total rest2 with
          | none => rw [hrec] at h; cases h
          | some p2 =>
            obtain ⟨fs2, r3⟩ := p2
            rw [hrec] at h
            simp only [Option.map_some', Option.some.injEq, Prod.mk.injEq] at h
            obtain ⟨hfs, hrest⟩ := h
            subst hfs
            have hlen2 := wait_any_key_consumes rest1 rest2 hw
            obtain ⟨ihl, ihm⟩ := ih rest2 (by omega) fs2 r3 hrec
            obtain ⟨f0, fs2', hfs2⟩ : ∃ f0 fs2', fs2 = f0 :: fs2' := by
              cases fs2 with
              | nil => cases ihl
              | cons f0 fs2' => exact ⟨f0, fs2', rfl⟩
            subst hfs2
            refine ⟨?_, ?_⟩
            · rw [List.getLast?_cons_cons, List.getLast?_cons_cons]
              exact ihl
            · intro f hf
              simp only [List.mem_cons] at hf
              rcases hf with hf | hf | hf
              · exact Or.inl hf
              · exact Or.inr (Or.inl hf)
              · exact ihm f (by simp [hf])

/-- Every cutscene frame is the fixed chrome frame. -/
theorem cutscene_mem (w : Nat) (f : Frame) (hf : f ∈ cutscene_frames w) :
    f = running_frame := by
  simp only [cutscene_frames, jet_cutscene_run, List.map_map, List.mem_map] at hf
  obtain ⟨x, -, hx⟩ := hf
  exact hx.symm

/-- Decomposition of a completed session: the three questions are passed in
    order, then final_lock runs, and the frame trace is the concatenation of
    the welcome frame, the cutscene frames and the stage traces. -/
theorem mainRun_decomp (w : Nat) (evs : List Event) (frames : List Frame) (rest : List Event)
    (h : mainRun w evs = some (frames, rest)) :
    ∃ e1 e2 e3 e4 t1 t2 t3 tf,
      wait_any_key evs = some e1 ∧
      ask_mc lock1 1 4 e1 = some (t1, e2) ∧
      ask_mc lock2 2 4 e2 = some (t2, e3) ∧
      ask_mc lock3 3 4 e3 = some (t3, e4) ∧
      final_lock e4 = some (tf, rest) ∧
      frames = welcome_frame :: (cutscene_frames w ++ (t1 ++ (t2 ++ (t3 ++ tf)))) := by
  unfold mainRun at h
  simp only [Option.bind_eq_some, Option.map_eq_some'] at h
  obtain ⟨e1, hw, ⟨qfs, e4⟩, ha, ⟨tf, e5⟩, hf, hfr⟩ := h
  simp only [Prod.mk.injEq] at hfr
  obtain ⟨hframes, hrest⟩ := hfr
  subst hrest
  simp only [locks, ask_all, Option.bind_eq_some, Option.map_eq_some'] at ha
  obtain ⟨⟨t1, e2⟩, h1, r1, ⟨⟨t2, e3⟩, h2, r2, ⟨⟨t3, e4'⟩, h3, p4, heq4, heqr2⟩, heqr1⟩,
    heqtop⟩ := ha
  simp only [Option.some.injEq] at heq4
  subst heq4
  subst heqr2
  subst heqr1
  simp only [Prod.mk.injEq] at heqtop
  obtain ⟨hq, he4⟩ := heqtop
  subst he4
  refine ⟨e1, e2, e3, e4', t1, t2, t3, tf, hw, h1, ?_, ?_, hf, ?_⟩
  · rw [show (2 : Nat) = 1 + 1 from rfl]; exact h2
  · rw [show (3 : Nat) = 1 + 1 + 1 from rfl]; exact h3
  · rw [← hframes, ← hq]
    simp [List.append_assoc]

/-- Evaluation of the concrete session c1_events at width 80. -/
theorem c1_run_eval : mainRun 80 c1_events = some (c1_frames, []) := by
  have ha1 : ask_mc lock1 1 4
      [Kc 'b', Kc 'r', Kc 'a', Kc 'p', Kc 'a', Kc 'p', Kc 'c', Kc 'p', Kc 'n', Kc 'r',
        Kc 'y', Kc 'e'] =
      some (c1_t1, [Kc 'a', Kc 'p', Kc 'c', Kc 'p', Kc 'n', Kc 'r', Kc 'y', Kc 'e']) := by
    have hstep2 : ask_mc lock1 1 4
        [Kc 'a', Kc 'p', Kc 'a', Kc 'p', Kc 'c', Kc 'p', Kc 'n', Kc 'r', Kc 'y', Kc 'e'] =
        some ([question_frame lock1 1 4, pass_frame lock1 1 4],
          [Kc 'a', Kc 'p', Kc 'c', Kc 'p', Kc 'n', Kc 'r', Kc 'y', Kc 'e']) :=
      ask_mc_correct_step lock1 1 4
        [Kc 'a', Kc 'p', Kc 'a', Kc 'p', Kc 'c', Kc 'p', Kc 'n', Kc 'r', Kc 'y', Kc 'e']
        [Kc 'p', Kc 'a', Kc 'p', Kc 'c', Kc 'p', Kc 'n', Kc 'r', Kc 'y', Kc 'e']
        [Kc 'a', Kc 'p', Kc 'c', Kc 'p', Kc 'n', Kc 'r', Kc 'y', Kc 'e']
        (by decide) (by decide)
    rw [ask_mc_wrong_step lock1 1 4
        [Kc 'b', Kc 'r', Kc 'a', Kc 'p', Kc 'a', Kc 'p', Kc 'c', Kc 'p', Kc 'n', Kc 'r',
          Kc 'y', Kc 'e']
        [Kc 'r', Kc 'a', Kc 'p', Kc 'a', Kc 'p', Kc 'c', Kc 'p', Kc 'n', Kc 'r', Kc 'y',
          Kc 'e']
        [Kc 'a', Kc 'p', Kc 'a', Kc 'p', Kc 'c', Kc 'p', Kc 'n', Kc 'r', Kc 'y', Kc 'e'] 'B'
        (by decide) (by decide) (by decide)]
    rw [hstep2]
    rfl
  have ha2 : ask_mc lock2 (1 + 1) 4
      [Kc 'a', Kc 'p', Kc 'c', Kc 'p', Kc 'n', Kc 'r', Kc 'y', Kc 'e'] =
      some ([question_frame lock2 (1 + 1) 4, pass_frame lock2 (1 + 1) 4],
        [Kc 'c', Kc 'p', Kc 'n', Kc 'r', Kc 'y', Kc 'e']) :=
    ask_mc_correct_step lock2 (1 + 1) 4
      [Kc 'a', Kc 'p', Kc 'c', Kc 'p', Kc 'n', Kc 'r', Kc 'y', Kc 'e']
      [Kc 'p', Kc 'c', Kc 'p', Kc 'n', Kc 'r', Kc 'y', Kc 'e']
      [Kc 'c', Kc 'p', Kc 'n', Kc 'r', Kc 'y', Kc 'e'] (by decide) (by decide)
  have ha3 : ask_mc lock3 (1 + 1 + 1) 4 [Kc 'c', Kc 'p', Kc 'n', Kc 'r', Kc 'y', Kc 'e'] =
      some ([question_frame lock3 (1 + 1 + 1) 4, pass_frame lock3 (1 + 1 + 1) 4],
        [Kc 'n', Kc 'r', Kc 'y', Kc 'e']) :=
    ask_mc_correct_step lock3 (1 + 1 + 1) 4 [Kc 'c', Kc 'p', Kc 'n', Kc 'r', Kc 'y', Kc 'e']
      [Kc 'p', Kc 'n', Kc 'r', Kc 'y', Kc 'e'] [Kc 'n', Kc 'r', Kc 'y', Kc 'e']
      (by decide) (by decide)
  have hfy : final_lock_loop (0 + 1) [Kc 'y', Kc 'e'] =
      some ([final_prompt_frame, success_frame], []) :=
    final_yes_step (0 + 1) [Kc 'y', Kc 'e'] [Kc 'e'] [] (by decide) (by decide)
  have hfn : final_lock [Kc 'n', Kc 'r', Kc 'y', Kc 'e'] = some (c1_tf, []) := by
    unfold final_lock
    rw [final_no_step 0 [Kc 'n', Kc 'r', Kc 'y', Kc 'e'] [Kc 'r', Kc 'y', Kc 'e']
      [Kc 'y', Kc 'e'] (by decide) (by decide)]
    rw [hfy]
    rfl
  have hall : ask_all locks 1
      [Kc 'b', Kc 'r', Kc 'a', Kc 'p', Kc 'a', Kc 'p', Kc 'c', Kc 'p', Kc 'n', Kc 'r',
        Kc 'y', Kc 'e'] =
      some (c1_t1 ++ (c1_t2 ++ (c1_t3 ++ [])), [Kc 'n', Kc 'r', Kc 'y', Kc 'e']) := by
    simp only [locks, ask_all]
    rw [ha1]
    simp only [Option.some_bind]
    rw [ha2]
    simp only [Option.some_bind]
    rw [ha3]
    simp only [Option.some_bind, Option.map_some']
    rfl
  unfold mainRun
  rw [show wait_any_key c1_events =
    some [Kc 'b', Kc 'r', Kc 'a', Kc 'p', Kc 'a', Kc 'p', Kc 'c', Kc 'p', Kc 'n', Kc 'r',
      Kc 'y', Kc 'e'] from rfl]
  simp only [Option.some_bind]
  rw [hall]
  simp only [Option.some_bind]
  rw [hfn]
  simp only [Option.map_some']
  simp [c1_frames, List.append_assoc]

/-- read_abcd skips any prefix of non-matching events and returns the
    uppercased letter of the first matching character key. -/
theorem read_abcd_first_match : ∀ (pre tail : List Event) (c : Char),
    (∀ e ∈ pre, abcd_match e = false) →
    abcd_match (Event.key (KeyCode.char c)) = true →
    read_abcd (pre ++ Event.key (KeyCode.char c) :: tail) =
      some (toAsciiUppercase c, tail) := by
  intro pre
  induction pre with
  | nil =>
    intro tail c _ hm
    simp only [abcd_match] at hm
    simp only [List.nil_append, read_abcd, hm, if_true]
  | cons e t ih =>
    intro tail c hall hm
    have he := hall e (List.mem_cons_self e t)
    have hrest : ∀ e' ∈ t, abcd_match e' = false :=
      fun e' he' => hall e' (List.mem_cons_of_mem e he')
    cases e with
    | nonKey => simpa [read_abcd] using ih tail c hrest hm
    | key k =>
      cases k with
      | other => simpa [read_abcd] using ih tail c hrest hm
      | char ch =>
        simp only [abcd_match] at he
        simp only [List.cons_append, read_abcd, he, Bool.false_eq_true, if_false]
        exact ih tail c hrest hm

/-- read_yn skips any prefix of non-matching events and returns the
    uppercased letter of the first matching character key. -/
theorem read_yn_first_match : ∀ (pre tail : List Event) (c : Char),
    (∀ e ∈ pre, yn_match e = false) →
    yn_match (Event.key (KeyCode.char c)) = true →
    read_yn (pre ++ Event.key (KeyCode.char c) :: tail) =
      some (toAsciiUppercase c, tail) := by
  intro pre
  induction pre with
  | nil =>
    intro tail c _ hm
    simp only [yn_match] at hm
    simp only [List.nil_append, read_yn, hm, if_true]
  | cons e t ih =>
    intro tail c hall hm
    have he := hall e (List.mem_cons_self e t)
    have hrest : ∀ e' ∈ t, yn_match e' = false :=
      fun e' he' => hall e' (List.mem_cons_of_mem e he')
    cases e with
    | nonKey => simpa [read_yn] using ih tail c hrest hm
    | key k =>
      cases k with
      | other => simpa [read_yn] using ih tail c hrest hm
      | char ch =>
        simp only [yn_match] at he
        simp only [List.cons_append, read_yn, he, Bool.false_eq_true, if_false]
        exact ih tail c hrest hm

/-- Claim C4: for every sequence of non-matching events followed by one
    matching character key, read_abcd (resp. read_yn) returns exactly that
    event's letter uppercased — one of A/B/C/D (resp. Y/N) — matching
    case-insensitively and never returning an earlier discarded key. -/
theorem valentine_c4 :
    (∀ (pre tail : List Event) (c : Char),
      (∀ e ∈ pre, abcd_match e = false) →
      abcd_match (Event.key (KeyCode.char c)) = true →
      read_abcd (pre ++ Event.key (KeyCode.char c) :: tail) =
        some (toAsciiUppercase c, tail)) ∧
    (∀ (pre tail : List Event) (c : Char),
      (∀ e ∈ pre, yn_match e = false) →
      yn_match (Event.key (KeyCode.char c)) = true →
      read_yn (pre ++ Event.key (KeyCode.char c) :: tail) =
        some (toAsciiUppercase c, tail)) ∧
    (∀ (l : List Event) (c : Char) (r : List Event),
      read_abcd l = some (c, r) → abcd_ok c = true) ∧
    (∀ (l : List Event) (c : Char) (r : List Event),
      read_yn l = some (c, r) → yn_ok c = true) :=
  ⟨read_abcd_first_match, read_yn_first_match, read_abcd_range, read_yn_range⟩

/-- Witness for C4: a concrete prefix of discarded events (a resize-style
    event, a function key, a mismatched letter) then a matching letter. -/
theorem valentine_c4_witness :
    read_abcd [Event.nonKey, Event.key KeyCode.other, Kc 'e', Kc 'b', Kc 'x'] =
      some ('B', [Kc 'x']) ∧
    read_yn [Kc 'a', Kc 'n', Kc 'x'] = some ('N', [Kc 'x']) := by
  constructor
  · have h := valentine_c4.1 [Event.nonKey, Event.key KeyCode.other, Kc 'e'] [Kc 'x'] 'b'
      (by decide) (by decide)
    simpa [Kc] using h.trans (by decide)
  · have h := valentine_c4.2.1 [Kc 'a'] [Kc 'x'] 'n' (by decide) (by decide)
    simpa [Kc] using h.trans (by decide)

/-- At width 80, any text of exactly 2^16 characters wraps to a cast
    length of 0, so the offset is 40 rather than 0. -/
theorem center_x_wrap_eval (text : List Char) (h : text.length = 65536) :
    center_x 80 text = 40 := by
  unfold center_x
  rw [h]

/-- Counterexample to C3 as stated: the source casts the character count to
    u16, so a 65536-character text wraps to length 0 and the offset is not
    clamped to 0 even though the text is longer than the width. -/
theorem valentine_c3_counterexample :
    80 < (List.replicate 65536 'a').length ∧
    center_x 80 (List.replicate 65536 'a') ≠ 0 := by
  constructor
  · rw [List.length_replicate 65536 'a']
    norm_num
  · rw [center_x_wrap_eval (List.replicate 65536 'a') (List.length_replicate 65536 'a')]
    norm_num

/-- Claim C3 (amended): for every width and every text of fewer than 2^16
    characters (so the u16 cast does not truncate), the centering offset is
    floor((width − length) / 2) when the text fits and 0 otherwise. -/
theorem valentine_c3 (width : Nat) (text : List Char) (h : text.length < 65536) :
    (text.length ≤ width → center_x width text = (width - text.length) / 2) ∧
    (width < text.length → center_x width text = 0) := by
  unfold center_x
  rw [Nat.mod_eq_of_lt h]
  refine ⟨fun _ => rfl, fun hgt => ?_⟩
  rw [Nat.sub_eq_zero_of_le (Nat.le_of_lt hgt)]

/-- Witness for C3 at concrete inputs, both branches. -/
theorem valentine_c3_witness :
    center_x 10 ['h', 'i'] = 4 ∧ center_x 1 ['h', 'i'] = 0 := by
  constructor
  · exact ((valentine_c3 10 ['h', 'i'] (by decide)).1 (by decide)).trans (by decide)
  · exact (valentine_c3 1 ['h', 'i'] (by decide)).2 (by decide)

/-- Counterexample to C2 as stated: at width 80 the sweep's last column is
    66, not the claimed 80 − glyph_width = 67 — the Rust range 0..(w − 13)
    excludes its upper bound. -/
theorem valentine_c2_counterexample :
    (jet_positions 80).getLast? ≠ some (80 - jet_glyph_width) := by decide

/-- Claim C2 (amended): for every width above the glyph width, the glyph
    column starts at 0, increases by exactly one column per tick, visits
    each column exactly once, and ends at (width − glyph_width − 1), i.e.
    the columns are exactly those strictly below width − glyph_width; the
    loop then ends (the position list is finite, no wraparound). -/
theorem valentine_c2 (w : Nat) (h : jet_glyph_width < w) :
    (jet_positions w).head? = some 0 ∧
    (jet_positions w).getLast? = some (w - jet_glyph_width - 1) ∧
    List.Chain' (fun a b => b = a + 1) (jet_positions w) ∧
    (jet_positions w).Nodup ∧
    ∀ x, x ∈ jet_positions w ↔ x < w - jet_glyph_width := by
  unfold jet_positions
  obtain ⟨m, hm⟩ : ∃ m, w - jet_glyph_width = m + 1 := ⟨w - jet_glyph_width - 1, by omega⟩
  rw [hm]
  refine ⟨?_, ?_, ?_, List.nodup_range _, fun x => List.mem_range⟩
  · rw [List.range_succ_eq_map]
    rfl
  · rw [List.range_succ, List.getLast?_append_cons]
    have : m = w - jet_glyph_width - 1 := by omega
    rw [this]
    rfl
  · exact (List.chain'_range_succ (fun a b => b = a + 1) m).mpr (fun k _ => rfl)

/-- Witness for C2 at width 20: columns 0..6, ending one before 20 − 13. -/
theorem valentine_c2_witness :
    (jet_positions 20).head? = some 0 ∧ (jet_positions 20).getLast? = some 6 := by
  constructor
  · exact (valentine_c2 20 (by decide)).1
  · exact ((valentine_c2 20 (by decide)).2.1).trans (by decide)

/-- Claim C10: when the terminal width is at most the glyph width, the
    sweep loop body never runs — the cutscene draws nothing and returns
    immediately (in the embedding the tick trace is empty). -/
theorem valentine_c10 (w : Nat) (h : w ≤ jet_glyph_width) :
    jet_positions w = [] ∧ jet_cutscene_run w = [] ∧ cutscene_frames w = [] := by
  have h0 : w - jet_glyph_width = 0 := Nat.sub_eq_zero_of_le h
  refine ⟨?_, ?_, ?_⟩
  · unfold jet_positions
    rw [h0]
    rfl
  · unfold jet_cutscene_run jet_positions
    rw [h0]
    rfl
  · unfold cutscene_frames jet_cutscene_run jet_positions
    rw [h0]
    rfl

/-- Witness for C10 at width 13 (the glyph width itself). -/
theorem valentine_c10_witness :
    jet_positions 13 = [] ∧ jet_cutscene_run 13 = [] ∧ cutscene_frames 13 = [] :=
  valentine_c10 13 (by decide)

/-- Claim C8: the status-bar time is minutes = s / 60 zero-padded to at
    least two digits, a colon, seconds = s % 60 zero-padded to two digits;
    no hour rollover and no cap on the minutes field. -/
theorem valentine_c8 :
    (∀ s : Nat, status_bar_time s = format_pad2 (s / 60) ++ ":" ++ format_pad2 (s % 60)) ∧
    (∀ n : Nat, n < 100 →
      format_pad2 n = String.mk [Nat.digitChar (n / 10), Nat.digitChar (n % 10)]) ∧
    status_bar_time 61 = "01:01" ∧ status_bar_time 3661 = "61:01" ∧
    status_bar_time 36061 = "601:01" := by
  refine ⟨fun s => rfl, ?_, by decide, by decide, by decide⟩
  decide

/-- Witness for C8: the padded two-digit rendering at a concrete input. -/
theorem valentine_c8_witness : format_pad2 5 = String.mk ['0', '5'] :=
  (valentine_c8.2.1 5 (by decide)).trans (by decide)

/-- Claim C9: read_yn only ever returns Y or N, so the wildcard arm of the
    match in final_lock is unreachable — the loop is extensionally equal to
    its version with only the Y and N branches. -/
theorem valentine_c9 :
    (∀ (l : List Event) (c : Char) (r : List Event),
      read_yn l = some (c, r) → c = 'Y' ∨ c = 'N') ∧
    (∀ (nc : Nat) (evs : List Event), final_lock_loop nc evs = final_lock_yn_only nc evs) := by
  constructor
  · intro l c r h
    exact yn_ok_cases c (read_yn_range l c r h)
  · intro nc evs
    exact final_lock_loop_eq_aux evs.length nc evs le_rfl

/-- Witness for C9 at concrete inputs. -/
theorem valentine_c9_witness :
    ('N' = 'Y' ∨ 'N' = 'N') ∧ final_lock_loop 0 [Kc 'y'] = final_lock_yn_only 0 [Kc 'y'] :=
  ⟨valentine_c9.1 [Kc 'n'] 'N' [] (by decide), valentine_c9.2 0 [Kc 'y']⟩

/-- Claim C5: the three hint messages are pairwise distinct and selected in
    order by the first, second, and third-and-beyond consecutive N answers
    (the counter only ever increments); a Y at any point, whatever the
    prior N count, immediately yields the success frame and ends the loop. -/
theorem valentine_c5 :
    (final_lock_msg 1 ≠ final_lock_msg 2 ∧ final_lock_msg 1 ≠ final_lock_msg 3 ∧
      final_lock_msg 2 ≠ final_lock_msg 3 ∧
      ∀ k, 3 ≤ k → final_lock_msg k = final_lock_msg 3) ∧
    (∀ (nc : Nat) (evs rest rest2 : List Event),
      read_yn evs = some ('Y', rest) → wait_any_key rest = some rest2 →
      final_lock_loop nc evs = some ([final_prompt_frame, success_frame], rest2)) ∧
    (∀ (nc : Nat) (evs rest rest2 rest3 : List Event) (fs : List Frame),
      read_yn evs = some ('N', rest) → wait_any_key rest = some rest2 →
      final_lock_loop (nc + 1) rest2 = some (fs, rest3) →
      final_lock_loop nc evs =
        some (final_prompt_frame :: retry_hint_frame (nc + 1) :: fs, rest3)) := by
  refine ⟨⟨by decide, by decide, by decide, ?_⟩, final_yes_step, ?_⟩
  · intro k hk
    match k, hk with
    | (n + 3), _ => rfl
  · intro nc evs rest rest2 rest3 fs h1 h2 h3
    rw [final_no_step nc evs rest rest2 h1 h2, h3]
    rfl

/-- Witness for C5: Y after seven prior Ns still succeeds immediately, and
    the hint for the fifth N equals the third hint. -/
theorem valentine_c5_witness :
    final_lock_loop 7 [Kc 'y', Kc 'e'] = some ([final_prompt_frame, success_frame], []) ∧
    final_lock_msg 5 = final_lock_msg 3 :=
  ⟨valentine_c5.2.1 7 [Kc 'y', Kc 'e'] [Kc 'e'] [] (by decide) (by decide),
    valentine_c5.1.2.2.2 5 (by decide)⟩

/-- Full-session properties: the decomposition of mainRun_decomp, each
    question trace ending in its pass frame, and a unique success frame
    closing the whole trace. -/
theorem mainRun_props (w : Nat) (evs : List Event) (frames : List Frame) (rest : List Event)
    (h : mainRun w evs = some (frames, rest)) :
    ∃ e1 e2 e3 e4 t1 t2 t3 tf,
      wait_any_key evs = some e1 ∧
      ask_mc lock1 1 4 e1 = some (t1, e2) ∧
      ask_mc lock2 2 4 e2 = some (t2, e3) ∧
      ask_mc lock3 3 4 e3 = some (t3, e4) ∧
      final_lock e4 = some (tf, rest) ∧
      frames = welcome_frame :: (cutscene_frames w ++ (t1 ++ (t2 ++ (t3 ++ tf)))) ∧
      t1.getLast? = some (pass_frame lock1 1 4) ∧
      t2.getLast? = some (pass_frame lock2 2 4) ∧
      t3.getLast? = some (pass_frame lock3 3 4) ∧
      List.count success_frame frames = 1 ∧
      frames.getLast? = some success_frame := by
  obtain ⟨e1, e2, e3, e4, t1, t2, t3, tf, hw, h1, h2, h3, hf, hfr⟩ :=
    mainRun_decomp w evs frames rest h
  obtain ⟨hl1, hm1⟩ := ask_mc_trace lock1 1 4 e1.length e1 le_rfl t1 e2 h1
  obtain ⟨hl2, hm2⟩ := ask_mc_trace lock2 2 4 e2.length e2 le_rfl t2 e3 h2
  obtain ⟨hl3, hm3⟩ := ask_mc_trace lock3 3 4 e3.length e3 le_rfl t3 e4 h3
  obtain ⟨hfh, hfl, hfc, hfm⟩ := final_lock_loop_trace e4.length 0 e4 le_rfl tf rest hf
  have hns1 : success_frame ∉ t1 := by
    intro hmem
    rcases hm1 _ hmem with h' | h' | h'
    · exact absurd h' (by decide)
    · exact absurd h' (by decide)
    · exact absurd h' (by decide)
  have hns2 : success_frame ∉ t2 := by
    intro hmem
    rcases hm2 _ hmem with h' | h' | h'
    · exact absurd h' (by decide)
    · exact absurd h' (by decide)
    · exact absurd h' (by decide)
  have hns3 : success_frame ∉ t3 := by
    intro hmem
    rcases hm3 _ hmem with h' | h' | h'
    · exact absurd h' (by decide)
    · exact absurd h' (by decide)
    · exact absurd h' (by decide)
  have hnsc : success_frame ∉ cutscene_frames w := by
    intro hmem
    exact absurd (cutscene_mem w _ hmem) (by decide)
  have htf : tf ≠ [] := by
    intro hnil
    rw [hnil] at hfh
    cases hfh
  refine ⟨e1, e2, e3, e4, t1, t2, t3, tf, hw, h1, h2, h3, hf, hfr, hl1, hl2, hl3, ?_, ?_⟩
  · rw [hfr]
    rw [List.count_cons, List.count_append, List.count_append, List.count_append,
      List.count_append]
    rw [List.count_eq_zero_of_not_mem hnsc, List.count_eq_zero_of_not_mem hns1,
      List.count_eq_zero_of_not_mem hns2, List.count_eq_zero_of_not_mem hns3, hfc]
    simp [show (success_frame == welcome_frame) = false from by decide,
      show (welcome_frame == success_frame) = false from by decide]
  · rw [hfr]
    have h5 : t3 ++ tf ≠ [] := fun hc => htf (List.append_eq_nil.mp hc).2
    have h6 : t2 ++ (t3 ++ tf) ≠ [] := fun hc => h5 (List.append_eq_nil.mp hc).2
    have h7 : t1 ++ (t2 ++ (t3 ++ tf)) ≠ [] := fun hc => h6 (List.append_eq_nil.mp hc).2
    have h8 : cutscene_frames w ++ (t1 ++ (t2 ++ (t3 ++ tf))) ≠ [] :=
      fun hc => h7 (List.append_eq_nil.mp hc).2
    rw [show welcome_frame :: (cutscene_frames w ++ (t1 ++ (t2 ++ (t3 ++ tf)))) =
      [welcome_frame] ++ (cutscene_frames w ++ (t1 ++ (t2 ++ (t3 ++ tf)))) from rfl]
    rw [List.getLast?_append_of_ne_nil _ h8, List.getLast?_append_of_ne_nil _ h7,
      List.getLast?_append_of_ne_nil _ h6, List.getLast?_append_of_ne_nil _ h5,
      List.getLast?_append_of_ne_nil _ htf]
    exact hfl

/-- Claim C1: a correct answer at a question stage draws the success frame,
    waits for a key and returns; a wrong answer draws the failure frame
    carrying that question's hint, waits for a key and re-runs the same
    question (unbounded retries); and every completed session passes the
    three configured questions in order, each ending in its pass frame,
    before final_lock runs — whose success frame appears exactly once, as
    the very last frame of the session. -/
theorem valentine_c1 :
    (∀ (q : McQuestion) (idx total : Nat) (evs rest rest2 : List Event),
      read_abcd evs = some (q.correct, rest) → wait_any_key rest = some rest2 →
      ask_mc q idx total evs =
        some ([question_frame q idx total, pass_frame q idx total], rest2)) ∧
    (∀ (q : McQuestion) (idx total : Nat) (evs rest rest2 : List Event) (c : Char),
      read_abcd evs = some (c, rest) → c ≠ q.correct → wait_any_key rest = some rest2 →
      q.wrong_msg ∈ (retry_frame q idx total).lines ∧
      ask_mc q idx total evs =
        (ask_mc q idx total rest2).map
          (fun p => (question_frame q idx total :: retry_frame q idx total :: p.1, p.2))) ∧
    (∀ (w : Nat) (evs : List Event) (frames : List Frame) (rest : List Event),
      mainRun w evs = some (frames, rest) →
      ∃ e1 e2 e3 e4 t1 t2 t3 tf,
        wait_any_key evs = some e1 ∧
        ask_mc lock1 1 4 e1 = some (t1, e2) ∧
        ask_mc lock2 2 4 e2 = some (t2, e3) ∧
        ask_mc lock3 3 4 e3 = some (t3, e4) ∧
        final_lock e4 = some (tf, rest) ∧
        frames = welcome_frame :: (cutscene_frames w ++ (t1 ++ (t2 ++ (t3 ++ tf)))) ∧
        t1.getLast? = some (pass_frame lock1 1 4) ∧
        t2.getLast? = some (pass_frame lock2 2 4) ∧
        t3.getLast? = some (pass_frame lock3 3 4) ∧
        List.count success_frame frames = 1 ∧
        frames.getLast? = some success_frame) := by
  refine ⟨ask_mc_correct_step, ?_, mainRun_props⟩
  intro q idx total evs rest rest2 c h1 hc h2
  exact ⟨by simp [retry_frame, draw_frame],
    ask_mc_wrong_step q idx total evs rest rest2 c h1 hc h2⟩

/-- Witness for C1: the concrete session (one wrong answer at lock 1, one N
    at the final lock) has exactly one success frame, closing the trace. -/
theorem valentine_c1_witness :
    List.count success_frame c1_frames = 1 ∧ c1_frames.getLast? = some success_frame := by
  obtain ⟨e1, e2, e3, e4, t1, t2, t3, tf, hw, h1, h2, h3, hf, hfr, hl1, hl2, hl3, hcount,
    hlast⟩ := valentine_c1.2.2 80 c1_events c1_frames [] c1_run_eval
  exact ⟨hcount, hlast⟩

/-- A list of equal naturals is non-decreasing. -/
theorem pairwise_le_of_const {l : List Nat} {v : Nat} (h : ∀ a ∈ l, a = v) :
    l.Pairwise (· ≤ ·) := by
  induction l with
  | nil => exact List.Pairwise.nil
  | cons a t ih =>
    refine List.Pairwise.cons ?_ (ih fun b hb => h b (List.mem_cons_of_mem a hb))
    intro b hb
    rw [h a (List.mem_cons_self a t), h b (List.mem_cons_of_mem a hb)]

/-- Gluing non-decreasing blocks across a pivot. -/
theorem pairwise_le_append {l1 l2 : List Nat} {v : Nat}
    (h1 : ∀ a ∈ l1, a ≤ v) (h2 : ∀ b ∈ l2, v ≤ b)
    (p1 : l1.Pairwise (· ≤ ·)) (p2 : l2.Pairwise (· ≤ ·)) :
    (l1 ++ l2).Pairwise (· ≤ ·) :=
  List.pairwise_append.mpr ⟨p1, p2, fun a ha b hb => le_trans (h1 a ha) (h2 b hb)⟩

/-- Claim C7: across a completed session the lock index passed to the
    renderer is monotonically non-decreasing, never exceeds the lock total
    of its frame, and the final yes/no stage is drawn with the total as
    both numerator and denominator (4/4). -/
theorem valentine_c7 (w : Nat) (evs : List Event) (frames : List Frame) (rest : List Event)
    (h : mainRun w evs = some (frames, rest)) :
    List.Pairwise (· ≤ ·) (frames.map Frame.lock_idx) ∧
    (∀ f ∈ frames, f.lock_idx ≤ f.lock_total) ∧
    final_prompt_frame ∈ frames ∧
    final_prompt_frame.lock_idx = 4 ∧ final_prompt_frame.lock_total = 4 := by
  obtain ⟨e1, e2, e3, e4, t1, t2, t3, tf, hw, h1, h2, h3, hf, hfr⟩ :=
    mainRun_decomp w evs frames rest h
  obtain ⟨-, hm1⟩ := ask_mc_trace lock1 1 4 e1.length e1 le_rfl t1 e2 h1
  obtain ⟨-, hm2⟩ := ask_mc_trace lock2 2 4 e2.length e2 le_rfl t2 e3 h2
  obtain ⟨-, hm3⟩ := ask_mc_trace lock3 3 4 e3.length e3 le_rfl t3 e4 h3
  obtain ⟨hfh, -, -, hfm⟩ := final_lock_loop_trace e4.length 0 e4 le_rfl tf rest hf
  have hv1 : ∀ f ∈ t1, f.lock_idx = 1 ∧ f.lock_total = 4 := by
    intro f hfmem
    rcases hm1 f hfmem with h' | h' | h' <;> subst h' <;> exact ⟨rfl, rfl⟩
  have hv2 : ∀ f ∈ t2, f.lock_idx = 2 ∧ f.lock_total = 4 := by
    intro f hfmem
    rcases hm2 f hfmem with h' | h' | h' <;> subst h' <;> exact ⟨rfl, rfl⟩
  have hv3 : ∀ f ∈ t3, f.lock_idx = 3 ∧ f.lock_total = 4 := by
    intro f hfmem
    rcases hm3 f hfmem with h' | h' | h' <;> subst h' <;> exact ⟨rfl, rfl⟩
  have hvf : ∀ f ∈ tf, f.lock_idx = 4 ∧ f.lock_total = 4 := by
    intro f hfmem
    rcases hfm f hfmem with h' | ⟨k, h'⟩ | h' <;> subst h' <;> exact ⟨rfl, rfl⟩
  have hvc : ∀ f ∈ cutscene_frames w, f.lock_idx = 0 ∧ f.lock_total = 4 := by
    intro f hfmem
    rw [cutscene_mem w f hfmem]
    exact ⟨rfl, rfl⟩
  refine ⟨?_, ?_, ?_, rfl, rfl⟩
  · rw [hfr]
    simp only [List.map_cons, List.map_append]
    have pc : (cutscene_frames w).map Frame.lock_idx |>.Pairwise (· ≤ ·) :=
      pairwise_le_of_const (v := 0) (by
        intro a ha
        simp only [List.mem_map] at ha
        obtain ⟨f, hfmem, hfa⟩ := ha
        rw [← hfa]
        exact (hvc f hfmem).1)
    have p1 : (t1.map Frame.lock_idx).Pairwise (· ≤ ·) :=
      pairwise_le_of_const (v := 1) (by
        intro a ha
        simp only [List.mem_map] at ha
        obtain ⟨f, hfmem, hfa⟩ := ha
        rw [← hfa]
        exact (hv1 f hfmem).1)
    have p2 : (t2.map Frame.lock_idx).Pairwise (· ≤ ·) :=
      pairwise_le_of_const (v := 2) (by
        intro a ha
        simp only [List.mem_map] at ha
        obtain ⟨f, hfmem, hfa⟩ := ha
        rw [← hfa]
        exact (hv2 f hfmem).1)
    have p3 : (t3.map Frame.lock_idx).Pairwise (· ≤ ·) :=
      pairwise_le_of_const (v := 3) (by
        intro a ha
        simp only [List.mem_map] at ha
        obtain ⟨f, hfmem, hfa⟩ := ha
        rw [← hfa]
        exact (hv3 f hfmem).1)
    have pf : (tf.map Frame.lock_idx).Pairwise (· ≤ ·) :=
      pairwise_le_of_const (v := 4) (by
        intro a ha
        simp only [List.mem_map] at ha
        obtain ⟨f, hfmem, hfa⟩ := ha
        rw [← hfa]
        exact (hvf f hfmem).1)
    have q34 : ((t3.map Frame.lock_idx) ++ (tf.map Frame.lock_idx)).Pairwise (· ≤ ·) := by
      refine pairwise_le_append (v := 4) ?_ ?_ p3 pf
      · intro a ha
        simp only [List.mem_map] at ha
        obtain ⟨f, hfmem, hfa⟩ := ha
        rw [← hfa, (hv3 f hfmem).1]
        omega
      · intro b hb
        simp only [List.mem_map] at hb
        obtain ⟨f, hfmem, hfb⟩ := hb
        rw [← hfb, (hvf f hfmem).1]
    have q234 : ((t2.map Frame.lock_idx) ++ ((t3.map Frame.lock_idx) ++
        (tf.map Frame.lock_idx))).Pairwise (· ≤ ·) := by
      refine pairwise_le_append (v := 3) ?_ ?_ p2 q34
      · intro a ha
        simp only [List.mem_map] at ha
        obtain ⟨f, hfmem, hfa⟩ := ha
        rw [← hfa, (hv2 f hfmem).1]
        omega
      · intro b hb
        simp only [List.mem_append, List.mem_map] at hb
        rcases hb with ⟨f, hfmem, hfb⟩ | ⟨f, hfmem, hfb⟩
        · rw [← hfb, (hv3 f hfmem).1]
        · rw [← hfb, (hvf f hfmem).1]
          omega
    have q1234 : ((t1.map Frame.lock_idx) ++ ((t2.map Frame.lock_idx) ++
        ((t3.map Frame.lock_idx) ++ (tf.map Frame.lock_idx)))).Pairwise (· ≤ ·) := by
      refine pairwise_le_append (v := 2) ?_ ?_ p1 q234
      · intro a ha
        simp only [List.mem_map] at ha
        obtain ⟨f, hfmem, hfa⟩ := ha
        rw [← hfa, (hv1 f hfmem).1]
        omega
      · intro b hb
        simp only [List.mem_append, List.mem_map] at hb
        rcases hb with ⟨f, hfmem, hfb⟩ | ⟨f, hfmem, hfb⟩ | ⟨f, hfmem, hfb⟩
        · rw [← hfb, (hv2 f hfmem).1]
        · rw [← hfb, (hv3 f hfmem).1]
          omega
        · rw [← hfb, (hvf f hfmem).1]
          omega
    have qall : ((cutscene_frames w).map Frame.lock_idx ++ ((t1.map Frame.lock_idx) ++
        ((t2.map Frame.lock_idx) ++ ((t3.map Frame.lock_idx) ++
          (tf.map Frame.lock_idx))))).Pairwise (· ≤ ·) := by
      refine pairwise_le_append (v := 1) ?_ ?_ pc q1234
      · intro a ha
        simp only [List.mem_map] at ha
        obtain ⟨f, hfmem, hfa⟩ := ha
        rw [← hfa, (hvc f hfmem).1]
        omega
      · intro b hb
        simp only [List.mem_append, List.mem_map] at hb
        rcases hb with ⟨f, hfmem, hfb⟩ | ⟨f, hfmem, hfb⟩ | ⟨f, hfmem, hfb⟩ |
          ⟨f, hfmem, hfb⟩
        · rw [← hfb, (hv1 f hfmem).1]
        · rw [← hfb, (hv2 f hfmem).1]
          omega
        · rw [← hfb, (hv3 f hfmem).1]
          omega
        · rw [← hfb, (hvf f hfmem).1]
          omega
    refine List.Pairwise.cons ?_ qall
    intro b hb
    exact Nat.zero_le b
  · intro f hfmem
    rw [hfr] at hfmem
    simp only [List.mem_cons, List.mem_append] at hfmem
    rcases hfmem with hfm' | hfm' | hfm' | hfm' | hfm' | hfm'
    · subst hfm'
      decide
    · rw [cutscene_mem w f hfm']
      decide
    · rw [(hv1 f hfm').1, (hv1 f hfm').2]
      omega
    · rw [(hv2 f hfm').1, (hv2 f hfm').2]
      omega
    · rw [(hv3 f hfm').1, (hv3 f hfm').2]
      omega
    · rw [(hvf f hfm').1, (hvf f hfm').2]
  · rw [hfr]
    have : final_prompt_frame ∈ tf := List.mem_of_mem_head? (by rw [hfh]; rfl)
    simp only [List.mem_cons, List.mem_append]
    exact Or.inr (Or.inr (Or.inr (Or.inr (Or.inr this))))

/-- Witness for C7: the final prompt frame occurs in the concrete session
    and is drawn as lock 4 of 4. -/
theorem valentine_c7_witness :
    final_prompt_frame ∈ c1_frames ∧ final_prompt_frame.lock_idx = 4 := by
  obtain ⟨-, -, hmem, hidx, -⟩ := valentine_c7 80 c1_events c1_frames [] c1_run_eval
  exact ⟨hmem, hidx⟩

end Valentine
